import Mathlib

/-!
Verification development for the split DeepFM model
(`secretflow/ml/nn/applications/sl_deepfm_torch.py`).

Tensors are modelled over the rationals.  A tensor appearing on the
cross-party wire is either a two-dimensional `batch x features` matrix or
a zero-dimensional scalar, which carries its dtype: the base emits its
sentinel as `torch.tensor(0, dtype=torch.float32)` while the fuse
compares against the int64 literal `torch.tensor(0)`, and `torch.equal`
is dtype-sensitive, so this distinction is semantically relevant and is
kept in the model.  Fallible torch operations (concatenation, stacking,
linear layers, broadcasting) return `Option`: `none` models a raised
runtime error.  Matrices are implicitly float32; automatic
differentiation is abstracted away and arithmetic is exact.
-/

/-- Dtype of a zero-dimensional tensor literal: `torch.tensor(0)` is
int64, the base's sentinel `torch.tensor(0, dtype=torch.float32)` is
float32. -/
inductive DType where
  | float32
  | int64
deriving DecidableEq

/-- A two-dimensional tensor: a list of rows (batch x features). -/
abbrev Mat := List (List ℚ)

/-- A tensor on the cross-party wire: either zero-dimensional (a scalar
literal with its dtype) or two-dimensional.  Equality of `Tensor` values
models `torch.equal`, which is `True` only for tensors of the same
shape, dtype and elements. -/
inductive Tensor where
  | scalar : DType → ℚ → Tensor
  | mat : Mat → Tensor
deriving DecidableEq

/-- Shape of a matrix: the list of row lengths (a rectangular
`b x d` matrix has shape `List.replicate b d`). -/
def shape (m : Mat) : List ℕ := m.map List.length

/-- Elementwise map over a matrix (`torch.pow`, scalar multiplication). -/
def matMap (f : ℚ → ℚ) (m : Mat) : Mat := m.map (List.map f)

/-- Elementwise combination of two matrices of identical shape. -/
def matZip (f : ℚ → ℚ → ℚ) (a b : Mat) : Mat :=
  List.zipWith (List.zipWith f) a b

/-- Elementwise matrix addition. -/
def matAdd (a b : Mat) : Mat := matZip (fun p q => p + q) a b

/-- Binary op on rows with torch-style broadcasting along the feature
axis: equal widths act elementwise, a width-1 operand broadcasts;
anything else is a runtime error. -/
def rowB (f : ℚ → ℚ → ℚ) (r s : List ℚ) : Option (List ℚ) :=
  if r.length = s.length then some (List.zipWith f r s)
  else if s.length = 1 then some (r.map (fun a => f a (s.headD 0)))
  else if r.length = 1 then some (s.map (fun c => f (r.headD 0) c))
  else none

/-- Binary op on matrices with row-wise broadcasting; the batch
dimensions must agree. -/
def matB (f : ℚ → ℚ → ℚ) : Mat → Mat → Option Mat
  | [], [] => some []
  | r :: rs, s :: ss => do
      let a ← rowB f r s
      let rest ← matB f rs ss
      some (a :: rest)
  | _, _ => none

/-- Collect a list of optional values; `none` aborts (a raised error). -/
def seqO : List (Option α) → Option (List α)
  | [] => some []
  | o :: rest => do
      let a ← o
      let as ← seqO rest
      some (a :: as)

/-- Row-wise concatenation of two matrices (`torch.cat(-, dim=1)` of a
pair). -/
def catTwo (a b : Mat) : Mat := List.zipWith (fun r s => r ++ s) a b

/-- Total row-wise concatenation of a list of matrices. -/
def concatCols : List Mat → Mat
  | [] => []
  | m :: rest => rest.foldl catTwo m

/-- `torch.cat(ms, dim=1)`: requires a nonempty list with equal batch
sizes. -/
def catMats (ms : List Mat) : Option Mat :=
  match ms with
  | [] => none
  | m :: rest =>
      if rest.all (fun a => a.length == m.length) then
        some (rest.foldl catTwo m)
      else none

/-- Total elementwise sum of a nonempty list of matrices. -/
def sumMatsL : List Mat → Mat
  | [] => []
  | m :: rest => rest.foldl matAdd m

/-- `torch.sum(torch.stack(ms, dim=1), dim=1)`: stacking requires a
nonempty list of identically shaped tensors, then sums across the new
axis. -/
def stackSum (ms : List Mat) : Option Mat :=
  match ms with
  | [] => none
  | m :: rest =>
      if rest.all (fun a => shape a == shape m) then
        some (rest.foldl matAdd m)
      else none

/-- `torch.sum(-, dim=1, keepdim=True)`: per-row sum kept as a
width-1 column. -/
def rowSums (m : Mat) : Mat := m.map (fun r => [r.sum])

/-- View a wire tensor as two-dimensional; zero-dimensional tensors
cannot be concatenated or stacked with matrices. -/
def asMat : Tensor → Option Mat
  | Tensor.mat m => some m
  | Tensor.scalar _ _ => none

/-- Require every tensor in a list to be two-dimensional. -/
def allMats (ts : List Tensor) : Option (List Mat) := seqO (ts.map asMat)

/-- ReLU activation. -/
def relu (q : ℚ) : ℚ := max q 0

/-- Dot product of two equal-length vectors. -/
def dotL (a b : List ℚ) : ℚ := (List.zipWith (fun p q => p * q) a b).sum

/-- A fully connected layer `nn.Linear(inF, -)`: weight rows are the
output neurons, `b` the biases.  Applying it to a vector of the wrong
width is a runtime error. -/
structure Linear where
  inF : ℕ
  w : List (List ℚ)
  b : List ℚ

/-- Apply a linear layer to one example. -/
def Linear.applyVec (l : Linear) (v : List ℚ) : Option (List ℚ) :=
  if v.length = l.inF then
    some (List.zipWith (fun wr bi => dotL wr v + bi) l.w l.b)
  else none

/-- Apply a linear layer to a whole batch. -/
def Linear.applyMat (l : Linear) (m : Mat) : Option Mat :=
  seqO (m.map l.applyVec)

/-- A feed-forward stack `Linear -> ReLU -> ... -> Linear`: ReLU after
every layer except the last (both sub-models drop the final
activation). -/
def mlp : List Linear → Mat → Option Mat
  | [], m => some m
  | [l], m => l.applyMat m
  | l :: l2 :: ls, m => do
      let h ← l.applyMat m
      mlp (l2 :: ls) (matMap relu h)

/-- Extract `x[off::4]` by first dropping `off` elements and then taking
every fourth element. -/
def every4 : List α → List α
  | [] => []
  | [a] => [a]
  | [a, _] => [a]
  | [a, _, _] => [a]
  | a :: _ :: _ :: _ :: rest => a :: every4 rest

/-- Input slot of a party: a batch of categorical indices, or a batch of
continuous feature vectors. -/
inductive SlotIn where
  | idx : List ℕ → SlotIn
  | val : Mat → SlotIn

/-- Categorical index batch of a slot; applying an embedding to a float
tensor is a runtime error. -/
def getIdx : SlotIn → Option (List ℕ)
  | SlotIn.idx l => some l
  | SlotIn.val _ => none

/-- Continuous value batch of a slot; feeding an index tensor to a
linear layer is a runtime error. -/
def getVal : SlotIn → Option Mat
  | SlotIn.val m => some m
  | SlotIn.idx _ => none

/-- First-order embedding lookup `nn.Embedding(n, 1)`: each index maps
to a width-1 row; an out-of-table index is a runtime error. -/
def lookup1 (tbl : List ℚ) (ids : List ℕ) : Option Mat :=
  seqO (ids.map (fun i => (tbl[i]?).map (fun q => [q])))

/-- Second-order embedding lookup `nn.Embedding(n, D)`. -/
def lookup2 (tbl : List (List ℚ)) (ids : List ℕ) : Option Mat :=
  seqO (ids.map (fun i => tbl[i]?))

/-- Derived construction state of `DeepFMBase.__init__` (lines 44-61 of
the source). -/
structure BaseState where
  input_size : ℕ
  continuous_feas_index : List ℕ
  has_cat_feas : Bool
  has_cont_feas : Bool
  cat_feas_nums : ℕ
  cont_feas_nums : ℕ
  fm_embedding_dim : ℕ
  second_part_dim : ℕ
  continuous_dim : ℕ
deriving DecidableEq

/-- `DeepFMBase.__init__`: derives the configuration state.  The only
failing step is the `continuous_dim` accumulation loop, which reads
`input_dims[index]` for every configured continuous index and raises
when an index is out of range (the loop only runs when the continuous
index list is nonempty).  Embedding and layer creation never fail. -/
def DeepFMBase.init (input_dims : List ℕ) (continuous_feas_index : List ℕ)
    (fm_embedding_dim : ℕ) : Option BaseState :=
  let input_size := input_dims.length
  let has_cat := continuous_feas_index.length != input_size
  let has_cont := continuous_feas_index != []
  let cat_nums := input_size - continuous_feas_index.length
  let second := if has_cat then cat_nums * fm_embedding_dim else fm_embedding_dim
  if has_cont then do
    let widths ← seqO (continuous_feas_index.map (fun i => input_dims[i]?))
    some {
      input_size := input_size
      continuous_feas_index := continuous_feas_index
      has_cat_feas := has_cat
      has_cont_feas := has_cont
      cat_feas_nums := cat_nums
      cont_feas_nums := continuous_feas_index.length
      fm_embedding_dim := fm_embedding_dim
      second_part_dim := second
      continuous_dim := widths.sum }
  else
    some {
      input_size := input_size
      continuous_feas_index := continuous_feas_index
      has_cat_feas := has_cat
      has_cont_feas := has_cont
      cat_feas_nums := cat_nums
      cont_feas_nums := continuous_feas_index.length
      fm_embedding_dim := fm_embedding_dim
      second_part_dim := second
      continuous_dim := 0 }

/-- Trained parameters of a party's base model: one first-order and one
second-order embedding table per categorical slot, the dense first-order
projection, the dense branch layer, and the DNN stack. -/
structure BaseWeights where
  emb1 : ℕ → List ℚ
  emb2 : ℕ → List (List ℚ)
  dense1 : Linear
  denseLayer : Linear
  dnn : List Linear

/-- Categorical slot positions in increasing order: the iteration order
of the embedding-layer dictionaries (insertion order over
`enumerate(input_dims)`, skipping continuous indices). -/
def catSlots (st : BaseState) : List ℕ :=
  (List.range st.input_size).filter (fun i => !(st.continuous_feas_index.contains i))

/-- Concatenation of the continuous slots (`dense_cat`, line 114). -/
def denseCat (st : BaseState) (x : List SlotIn) : Option Mat := do
  let feas ← seqO (st.continuous_feas_index.map (fun i => (x[i]?).bind getVal))
  catMats feas

/-- First-order term of `DeepFMBase.forward` (lines 103-119): sum of the
per-slot scalar embeddings plus the dense projection, whichever parts
exist.  When the party has neither feature kind, `fm_1st_part` stays
`None`; we model the resulting downstream failure as an error here. -/
def fm1stPart (st : BaseState) (W : BaseWeights) (x : List SlotIn) : Option Mat :=
  if st.has_cat_feas then do
    let sparse ← seqO ((catSlots st).map
      (fun i => (x[i]?).bind (fun s => (getIdx s).bind (lookup1 (W.emb1 i)))))
    let c ← catMats sparse
    let base := rowSums c
    if st.has_cont_feas then do
      let dc ← denseCat st x
      let d ← W.dense1.applyMat dc
      matB (fun p q => p + q) base d
    else some base
  else if st.has_cont_feas then do
    let dc ← denseCat st x
    W.dense1.applyMat dc
  else none

/-- `DeepFMBase.forward` (lines 99-153).  Checks the slot count, builds
the first-order term, the two second-order statistics, and the DNN
branch, and returns the four-element wire tuple; a party without
categorical features emits the zero-dimensional sentinel in the last two
positions. -/
def DeepFMBase.forward (st : BaseState) (W : BaseWeights) (x : List SlotIn) :
    Option (List Tensor) :=
  if x.length = st.input_size then do
    let fm_1st_part ← fm1stPart st W x
    if st.has_cat_feas then do
      let res2 ← seqO ((catSlots st).map
        (fun i => (x[i]?).bind (fun s => (getIdx s).bind (lookup2 (W.emb2 i)))))
      let sum_emb ← stackSum res2
      let square_and_sum_emb ← stackSum (res2.map (matMap (fun v => v ^ 2)))
      let flat ← catMats res2
      let dnn_input ←
        if st.has_cont_feas then do
          let dc ← denseCat st x
          let dense_out ← (W.denseLayer.applyMat dc).map (matMap relu)
          matB (fun p q => p + q) flat dense_out
        else some flat
      let dnn_output ← mlp W.dnn dnn_input
      some [Tensor.mat dnn_output, Tensor.mat fm_1st_part,
            Tensor.mat sum_emb, Tensor.mat square_and_sum_emb]
    else do
      let dnn_input ←
        if st.has_cont_feas then do
          let dc ← denseCat st x
          (W.denseLayer.applyMat dc).map (matMap relu)
        else none
      let dnn_output ← mlp W.dnn dnn_input
      some [Tensor.mat dnn_output, Tensor.mat fm_1st_part,
            Tensor.scalar DType.float32 0, Tensor.scalar DType.float32 0]
  else none

/-- `DeepFMBase.output_num` (line 155): always four wire values. -/
def DeepFMBase.output_num : ℕ := 4

/-- The fuse model: the configured per-party DNN output widths and the
fusion feed-forward stack (hidden layers with ReLU plus a final
`Linear(-, 1)`). -/
structure FuseModel where
  input_dims : List ℕ
  dnn : List Linear

/-- Sentinel-aware selection of the summed `sum_emb` statistic
(lines 199-207): compare slots `x[2]` and `x[6]` against the int64
literal `torch.tensor(0)` with `torch.equal` (shape-, dtype- and
value-sensitive); on a match, substitute the other party's vector
(unsqueeze + sum is the identity on it), otherwise stack `x[2::4]` and
sum across parties.  The base's float32 sentinel never matches the int64
literal, so a sentinel falls through to `torch.stack`, which fails on a
zero-dimensional operand. -/
def selSumEmbs (x : List Tensor) : Option Mat := do
  let t2 ← x[2]?
  if t2 = Tensor.scalar DType.int64 0 then do
    match (← x[6]?) with
    | Tensor.mat m => some m
    | Tensor.scalar _ _ => none
  else do
    let t6 ← x[6]?
    if t6 = Tensor.scalar DType.int64 0 then
      match t2 with
      | Tensor.mat m => some m
      | Tensor.scalar _ _ => none
    else do
      let ms ← allMats (every4 (x.drop 2))
      stackSum ms

/-- Sentinel-aware selection of the summed `square_and_sum_emb`
statistic (lines 208-214), with the same dtype-sensitive `torch.equal`
comparison against the int64 literal: on a match the other slot is taken
as-is (so it may itself be zero-dimensional), otherwise stack `x[3::4]`
and sum. -/
def selSquareEmbs (x : List Tensor) : Option Tensor := do
  let t3 ← x[3]?
  if t3 = Tensor.scalar DType.int64 0 then do
    let t7 ← x[7]?
    some t7
  else do
    let t7 ← x[7]?
    if t7 = Tensor.scalar DType.int64 0 then some t3
    else do
      let ms ← allMats (every4 (x.drop 3))
      let s ← stackSum ms
      some (Tensor.mat s)

/-- Subtract the selected `square_and_sum_emb` from the squared sum; a
zero-dimensional right operand broadcasts over every entry. -/
def subQ (s2 : Mat) : Tensor → Option Mat
  | Tensor.mat q => matB (fun p r => p - r) s2 q
  | Tensor.scalar _ c => some (matMap (fun p => p - c) s2)

/-- The reconstructed second-order interaction matrix
`0.5 * (sum_and_square_emb - square_and_sum_emb)` of line 216, one value
per example and embedding dimension. -/
def recon2 (x : List Tensor) : Option Mat := do
  let s ← selSumEmbs x
  let q ← selSquareEmbs x
  let d ← subQ (matMap (fun v => v ^ 2) s) q
  some (matMap (fun v => (1 / 2) * v) d)

/-- `DeepFMFuse.forward` (lines 194-219) up to but excluding the final
sigmoid: concatenate the DNN branches, sum the first-order parts,
reconstruct the second-order term, add the (batch x 1) first-order
column to the (batch x D) interaction matrix (broadcast), reduce each
row, and add the fusion network output. -/
def DeepFMFuse.forward (F : FuseModel) (x : List Tensor) : Option Mat := do
  let dmats ← allMats (every4 x)
  let dnn_outputs ← catMats dmats
  let fmats ← allMats (every4 (x.drop 1))
  let fm_1st_part ← stackSum fmats
  let half ← recon2 x
  let sub ← matB (fun p q => p + q) half fm_1st_part
  let fm_2nd_part := rowSums sub
  let dout ← mlp F.dnn dnn_outputs
  matB (fun p q => p + q) fm_2nd_part dout

/-- Sigmoid, applied entrywise to the real-valued image of the
pre-sigmoid output. -/
noncomputable def sigmoid (x : ℝ) : ℝ := 1 / (1 + Real.exp (-x))

/-- End-to-end two-party pipeline, pre-sigmoid: both base forwards, the
wire concatenation, then the fuse forward. -/
def endToEndPre (st1 : BaseState) (W1 : BaseWeights) (x1 : List SlotIn)
    (st2 : BaseState) (W2 : BaseWeights) (x2 : List SlotIn)
    (F : FuseModel) : Option Mat := do
  let r1 ← DeepFMBase.forward st1 W1 x1
  let r2 ← DeepFMBase.forward st2 W2 x2
  DeepFMFuse.forward F (r1 ++ r2)

/-- End-to-end two-party predictions: the sigmoid image of the
pre-sigmoid output (line 219). -/
noncomputable def endToEndPreds (st1 : BaseState) (W1 : BaseWeights) (x1 : List SlotIn)
    (st2 : BaseState) (W2 : BaseWeights) (x2 : List SlotIn)
    (F : FuseModel) : Option (List (List ℝ)) :=
  (endToEndPre st1 W1 x1 st2 W2 x2 F).map
    (fun m => m.map (fun r => r.map (fun q => sigmoid (q : ℝ))))

/-- A width-1 column matrix holding one scalar per example (the shape of
every `fm_1st_part`). -/
def colMat (v : List ℚ) : Mat := v.map (fun q => [q])

/-- A party's four-element wire tuple with genuine (non-sentinel)
second-order statistics: DNN branch output, first-order column,
sum-of-embeddings and sum-of-squared-embeddings matrices. -/
structure PartyOut where
  dnn : Mat
  fm1 : List ℚ
  se : Mat
  sq : Mat

/-- The flat aggregator input: the concatenation, in party order, of
each party's four wire tensors. -/
def flatParties : List PartyOut → List Tensor
  | [] => []
  | p :: ps =>
      Tensor.mat p.dnn :: Tensor.mat (colMat p.fm1) :: Tensor.mat p.se ::
        Tensor.mat p.sq :: flatParties ps

/-- Elementwise sum of a list of equal-length vectors, oriented exactly
like the fold hidden in `torch.sum(torch.stack -, dim=1)`. -/
def sumVecs : List (List ℚ) → List ℚ
  | [] => []
  | v :: vs => vs.foldl (fun a c => List.zipWith (fun p q => p + q) a c) v

/-- Zip four lists with a four-argument function. -/
def zip4 (f : α → β → γ → δ → ε) : List α → List β → List γ → List δ → List ε
  | a :: as, b :: bs, c :: cs, d :: ds => f a b c d :: zip4 f as bs cs ds
  | _, _, _, _ => []

lemma tensor_mat_ne_scalar (m : Mat) (d : DType) (c : ℚ) :
    (Tensor.mat m = Tensor.scalar d c) = False := by simp

lemma dtype_float32_ne_int64 : (DType.float32 = DType.int64) = False := by
  simp

lemma seqO_map_some {α β : Type} (l : List α) (f : α → Option β) (g : α → β)
    (h : ∀ a ∈ l, f a = some (g a)) : seqO (l.map f) = some (l.map g) := by
  induction l with
  | nil => rfl
  | cons a l ih =>
      simp only [List.map_cons, seqO, h a (by simp),
        ih (fun a ha => h a (by simp [ha])), Option.bind_some]
      rfl

lemma seqO_map_none {α β : Type} (l : List α) (f : α → Option β) (a : α)
    (ha : a ∈ l) (hf : f a = none) : seqO (l.map f) = none := by
  induction l with
  | nil => simp at ha
  | cons b l ih =>
      rcases List.mem_cons.mp ha with h | h
      · subst h
        simp [seqO, hf]
      · simp only [List.map_cons, seqO]
        cases hfb : f b with
        | none => rfl
        | some v => simp [ih h]

lemma allMats_map_mat {α : Type} (l : List α) (g : α → Mat) :
    allMats (l.map (fun z => Tensor.mat (g z))) = some (l.map g) := by
  unfold allMats
  rw [List.map_map]
  exact seqO_map_some l _ g (fun a _ => rfl)

lemma every4_flat0 (ps : List PartyOut) :
    every4 (flatParties ps) = ps.map (fun p => Tensor.mat p.dnn) := by
  induction ps with
  | nil => rfl
  | cons p ps ih =>
      simp only [flatParties, every4, List.map_cons]
      rw [ih]

lemma every4_flat1 (ps : List PartyOut) :
    every4 ((flatParties ps).drop 1) =
      ps.map (fun p => Tensor.mat (colMat p.fm1)) := by
  induction ps with
  | nil => rfl
  | cons p ps ih =>
      cases ps with
      | nil => rfl
      | cons p2 ps2 =>
          simp only [flatParties, List.drop, List.map_cons] at ih ⊢
          simp only [every4]
          rw [ih]

lemma every4_flat2 (ps : List PartyOut) :
    every4 ((flatParties ps).drop 2) = ps.map (fun p => Tensor.mat p.se) := by
  induction ps with
  | nil => rfl
  | cons p ps ih =>
      cases ps with
      | nil => rfl
      | cons p2 ps2 =>
          simp only [flatParties, List.drop, List.map_cons] at ih ⊢
          simp only [every4]
          rw [ih]

lemma every4_flat3 (ps : List PartyOut) :
    every4 ((flatParties ps).drop 3) = ps.map (fun p => Tensor.mat p.sq) := by
  induction ps with
  | nil => rfl
  | cons p ps ih =>
      cases ps with
      | nil => rfl
      | cons p2 ps2 =>
          simp only [flatParties, List.drop, List.map_cons] at ih ⊢
          simp only [every4]
          rw [ih]

lemma shape_matMap (f : ℚ → ℚ) (m : Mat) : shape (matMap f m) = shape m := by
  simp [shape, matMap, List.map_map]

lemma shape_matAdd (a b : Mat) (h : shape b = shape a) :
    shape (matAdd a b) = shape a := by
  induction a generalizing b with
  | nil =>
      cases b with
      | nil => rfl
      | cons s bs => simp [shape] at h
  | cons r as ih =>
      cases b with
      | nil => simp [shape] at h
      | cons s bs =>
          simp only [shape, List.map_cons, List.cons.injEq] at h
          simp only [matAdd, matZip, List.zipWith_cons_cons, shape, List.map_cons,
            List.cons.injEq]
          constructor
          · rw [List.length_zipWith, h.1, min_self]
          · exact ih bs h.2

lemma shape_foldl_matAdd (ms : List Mat) (m : Mat)
    (h : ∀ a ∈ ms, shape a = shape m) :
    shape (ms.foldl matAdd m) = shape m := by
  induction ms generalizing m with
  | nil => rfl
  | cons c ms ih =>
      simp only [List.foldl_cons]
      have h1 : shape (matAdd m c) = shape m :=
        shape_matAdd m c (h c (by simp))
      rw [ih (matAdd m c) (fun a ha => by rw [h1]; exact h a (by simp [ha]))]
      exact h1

lemma stackSum_eq (m : Mat) (ms : List Mat) (h : ∀ a ∈ ms, shape a = shape m) :
    stackSum (m :: ms) = some (sumMatsL (m :: ms)) := by
  simp only [stackSum, sumMatsL]
  rw [if_pos]
  apply List.all_eq_true.mpr
  intro a ha
  exact beq_iff_eq.mpr (h a ha)

lemma catMats_eq (m : Mat) (ms : List Mat)
    (h : ∀ a ∈ ms, a.length = m.length) :
    catMats (m :: ms) = some (concatCols (m :: ms)) := by
  simp only [catMats, concatCols]
  rw [if_pos]
  apply List.all_eq_true.mpr
  intro a ha
  exact beq_iff_eq.mpr (h a ha)

lemma rowB_same (f : ℚ → ℚ → ℚ) (r s : List ℚ) (h : r.length = s.length) :
    rowB f r s = some (List.zipWith f r s) := by
  simp [rowB, h]

lemma rowB_col (f : ℚ → ℚ → ℚ) (r : List ℚ) (c : ℚ) :
    rowB f r [c] = some (r.map (fun a => f a c)) := by
  match r with
  | [] => rfl
  | [a] => rfl
  | a :: b :: t => simp [rowB]

lemma matB_same (f : ℚ → ℚ → ℚ) (a b : Mat) (h : shape b = shape a) :
    matB f a b = some (matZip f a b) := by
  induction a generalizing b with
  | nil =>
      cases b with
      | nil => rfl
      | cons s bs => simp [shape] at h
  | cons r as ih =>
      cases b with
      | nil => simp [shape] at h
      | cons s bs =>
          simp only [shape, List.map_cons, List.cons.injEq] at h
          simp only [matB, matZip, List.zipWith_cons_cons]
          rw [rowB_same f r s h.1.symm, ih bs h.2]
          rfl

lemma matB_col (f : ℚ → ℚ → ℚ) (a : Mat) (v : List ℚ) (h : a.length = v.length) :
    matB f a (colMat v) =
      some (List.zipWith (fun r c => r.map (fun q => f q c)) a v) := by
  induction a generalizing v with
  | nil =>
      cases v with
      | nil => rfl
      | cons c vs => simp at h
  | cons r as ih =>
      cases v with
      | nil => simp at h
      | cons c vs =>
          simp only [List.length_cons, Nat.succ.injEq] at h
          simp only [colMat, List.map_cons, matB, List.zipWith_cons_cons]
          rw [rowB_col f r c]
          have := ih vs h
          simp only [colMat] at this
          rw [this]
          rfl

lemma matAdd_colMat (u v : List ℚ) :
    matAdd (colMat u) (colMat v) =
      colMat (List.zipWith (fun p q => p + q) u v) := by
  induction u generalizing v with
  | nil => cases v <;> rfl
  | cons a us ih =>
      cases v with
      | nil => rfl
      | cons b vs =>
          show ([a + b]) :: matAdd (colMat us) (colMat vs) =
            ([a + b]) :: colMat (List.zipWith (fun p q => p + q) us vs)
          rw [ih vs]

lemma sumMatsL_colMat (l : List (List ℚ)) :
    sumMatsL (l.map colMat) = colMat (sumVecs l) := by
  cases l with
  | nil => rfl
  | cons v vs =>
      simp only [List.map_cons, sumMatsL, sumVecs]
      induction vs generalizing v with
      | nil => rfl
      | cons w ws ih =>
          simp only [List.map_cons, List.foldl_cons]
          rw [matAdd_colMat v w]
          exact ih (List.zipWith (fun p q => p + q) v w)

lemma shape_colMat (v : List ℚ) : shape (colMat v) = List.replicate v.length 1 := by
  induction v with
  | nil => rfl
  | cons a vs ih =>
      show 1 :: shape (colMat vs) = 1 :: List.replicate vs.length 1
      rw [ih]

lemma sum_map_add_const (l : List ℚ) (c : ℚ) :
    (l.map (fun v => v + c)).sum = l.sum + l.length * c := by
  induction l with
  | nil => simp
  | cons a l ih =>
      simp only [List.map_cons, List.sum_cons, List.length_cons, ih]
      push_cast
      ring

lemma sum_map_half (l : List ℚ) :
    (l.map (fun v => (1 / 2) * v)).sum = (1 / 2) * l.sum := by
  induction l with
  | nil => simp
  | cons a l ih =>
      simp only [List.map_cons, List.sum_cons, ih]
      ring

lemma sum_zipWith_sub (u w : List ℚ) (h : u.length = w.length) :
    (List.zipWith (fun p q => p - q) u w).sum = u.sum - w.sum := by
  induction u generalizing w with
  | nil =>
      cases w with
      | nil => simp
      | cons b ws => simp at h
  | cons a us ih =>
      cases w with
      | nil => simp at h
      | cons b ws =>
          simp only [List.length_cons, Nat.succ.injEq] at h
          simp only [List.zipWith_cons_cons, List.sum_cons, ih ws h]
          ring

lemma row_half_sum (srow qrow : List ℚ) (f : ℚ) (D : ℕ)
    (hs : srow.length = D) (hq : qrow.length = D) :
    (((List.zipWith (fun p q => p - q) (srow.map (fun v => v ^ 2)) qrow).map
        (fun v => (1 / 2) * v)).map (fun q => q + f)).sum
      = (1 / 2) * ((srow.map (fun v => v ^ 2)).sum - qrow.sum) + (D : ℚ) * f := by
  have hlen : (List.zipWith (fun p q => p - q)
      (srow.map (fun v => v ^ 2)) qrow).length = D := by
    rw [List.length_zipWith, List.length_map, hs, hq, min_self]
  rw [sum_map_add_const, List.length_map, hlen, sum_map_half,
    sum_zipWith_sub _ _ (by rw [List.length_map, hs, hq])]

lemma shape_nil_iff (m : Mat) : shape m = [] ↔ m = [] := by
  cases m <;> simp [shape]

lemma shape_cons_replicate (m : Mat) (n D : ℕ)
    (h : shape m = List.replicate (n + 1) D) :
    ∃ r m2, m = r :: m2 ∧ r.length = D ∧ shape m2 = List.replicate n D := by
  cases m with
  | nil => simp [shape] at h
  | cons r m2 =>
      rw [List.replicate_succ] at h
      simp only [shape, List.map_cons, List.cons.injEq] at h
      exact ⟨r, m2, rfl, h.1, h.2⟩

lemma final_calc (D : ℕ) : ∀ (ds F1 : List ℚ) (S Q : Mat),
    shape S = List.replicate ds.length D →
    shape Q = List.replicate ds.length D →
    F1.length = ds.length →
    List.zipWith (fun r d => r.map (fun q => q + d))
      (rowSums (List.zipWith (fun r c => r.map (fun q => q + c))
        (matMap (fun v => (1 / 2) * v)
          (matZip (fun p q => p - q) (matMap (fun v => v ^ 2) S) Q))
        F1))
      ds
    = zip4 (fun d f srow qrow =>
        [(1 / 2) * ((srow.map (fun v => v ^ 2)).sum - qrow.sum) + (D : ℚ) * f + d])
        ds F1 S Q := by
  intro ds
  induction ds with
  | nil =>
      intro F1 S Q hS hQ hF
      simp [zip4]
  | cons d ds ih =>
      intro F1 S Q hS hQ hF
      obtain ⟨srow, S2, rfl, hsr, hS2⟩ :=
        shape_cons_replicate S ds.length D (by simpa using hS)
      obtain ⟨qrow, Q2, rfl, hqr, hQ2⟩ :=
        shape_cons_replicate Q ds.length D (by simpa using hQ)
      cases F1 with
      | nil => simp at hF
      | cons f F2 =>
          simp only [List.length_cons, Nat.succ.injEq] at hF
          simp only [matMap, List.map_cons, matZip, List.zipWith_cons_cons,
            rowSums, zip4, List.map_nil, List.cons.injEq, and_true]
          constructor
          · rw [row_half_sum srow qrow f D hsr hqr]
          · simpa only [rowSums, matMap, matZip] using ih F2 S2 Q2 hS2 hQ2 hF

lemma shape_matZip (f : ℚ → ℚ → ℚ) (a b : Mat) (h : shape b = shape a) :
    shape (matZip f a b) = shape a := by
  induction a generalizing b with
  | nil =>
      cases b with
      | nil => rfl
      | cons s bs => simp [shape] at h
  | cons r as ih =>
      cases b with
      | nil => simp [shape] at h
      | cons s bs =>
          simp only [shape, List.map_cons, List.cons.injEq] at h
          simp only [matZip, List.zipWith_cons_cons, shape, List.map_cons,
            List.cons.injEq]
          constructor
          · rw [List.length_zipWith, h.1, min_self]
          · exact ih bs h.2

lemma length_eq_of_shape (m : Mat) (b D : ℕ) (h : shape m = List.replicate b D) :
    m.length = b := by
  have := congrArg List.length h
  simpa [shape] using this

lemma sumVecs_length (l : List (List ℚ)) (b : ℕ) (h : ∀ u ∈ l, u.length = b)
    (hne : l ≠ []) : (sumVecs l).length = b := by
  cases l with
  | nil => exact absurd rfl hne
  | cons v vs =>
      simp only [sumVecs]
      induction vs generalizing v with
      | nil => exact h v (by simp)
      | cons w ws ih =>
          simp only [List.foldl_cons]
          refine ih (List.zipWith (fun p q => p + q) v w) ?_ (by simp)
          intro u hu
          rcases List.mem_cons.mp hu with h1 | h1
          · subst h1
            rw [List.length_zipWith, h v (by simp), h w (by simp), min_self]
          · exact h u (List.mem_cons.mpr (Or.inr (List.mem_cons.mpr (Or.inr h1))))

lemma shape_sumMatsL (m : Mat) (ms : List Mat)
    (h : ∀ a ∈ ms, shape a = shape m) :
    shape (sumMatsL (m :: ms)) = shape m :=
  shape_foldl_matAdd ms m h

lemma selSumEmbs_flat (p0 p1 : PartyOut) (rest : List PartyOut) (b D : ℕ)
    (h : ∀ p ∈ p0 :: p1 :: rest, shape p.se = List.replicate b D) :
    selSumEmbs (flatParties (p0 :: p1 :: rest)) =
      some (sumMatsL ((p0 :: p1 :: rest).map (fun p => p.se))) := by
  have h2 : (flatParties (p0 :: p1 :: rest))[2]? = some (Tensor.mat p0.se) := by
    simp [flatParties]
  have h6 : (flatParties (p0 :: p1 :: rest))[6]? = some (Tensor.mat p1.se) := by
    simp [flatParties]
  simp only [selSumEmbs, h2, h6, Option.bind_eq_bind, Option.some_bind,
    if_neg (show ¬ (Tensor.mat p0.se = Tensor.scalar DType.int64 0) by simp),
    if_neg (show ¬ (Tensor.mat p1.se = Tensor.scalar DType.int64 0) by simp)]
  rw [every4_flat2, allMats_map_mat]
  simp only [Option.bind_eq_bind, Option.some_bind, List.map_cons]
  exact stackSum_eq p0.se ((p1 :: rest).map (fun p => p.se))
    (fun a ha => by
      simp only [List.mem_map] at ha
      obtain ⟨p, hp, rfl⟩ := ha
      rw [h p (List.mem_cons.mpr (Or.inr hp)), h p0 (by simp)])

lemma selSquareEmbs_flat (p0 p1 : PartyOut) (rest : List PartyOut) (b D : ℕ)
    (h : ∀ p ∈ p0 :: p1 :: rest, shape p.sq = List.replicate b D) :
    selSquareEmbs (flatParties (p0 :: p1 :: rest)) =
      some (Tensor.mat (sumMatsL ((p0 :: p1 :: rest).map (fun p => p.sq)))) := by
  have h3 : (flatParties (p0 :: p1 :: rest))[3]? = some (Tensor.mat p0.sq) := by
    simp [flatParties]
  have h7 : (flatParties (p0 :: p1 :: rest))[7]? = some (Tensor.mat p1.sq) := by
    simp [flatParties]
  simp only [selSquareEmbs, h3, h7, Option.bind_eq_bind, Option.some_bind,
    if_neg (show ¬ (Tensor.mat p0.sq = Tensor.scalar DType.int64 0) by simp),
    if_neg (show ¬ (Tensor.mat p1.sq = Tensor.scalar DType.int64 0) by simp)]
  rw [every4_flat3, allMats_map_mat]
  simp only [Option.bind_eq_bind, Option.some_bind, List.map_cons]
  have hst := stackSum_eq p0.sq ((p1 :: rest).map (fun p => p.sq))
    (fun a ha => by
      simp only [List.mem_map] at ha
      obtain ⟨p, hp, rfl⟩ := ha
      rw [h p (List.mem_cons.mpr (Or.inr hp)), h p0 (by simp)])
  exact (congrArg (fun o => Option.bind o (fun s => some (Tensor.mat s))) hst).trans rfl

lemma recon2_flat (p0 p1 : PartyOut) (rest : List PartyOut) (b D : ℕ)
    (hse : ∀ p ∈ p0 :: p1 :: rest, shape p.se = List.replicate b D)
    (hsq : ∀ p ∈ p0 :: p1 :: rest, shape p.sq = List.replicate b D) :
    recon2 (flatParties (p0 :: p1 :: rest)) =
      some (matMap (fun v => (1 / 2) * v)
        (matZip (fun p q => p - q)
          (matMap (fun v => v ^ 2) (sumMatsL ((p0 :: p1 :: rest).map (fun p => p.se))))
          (sumMatsL ((p0 :: p1 :: rest).map (fun p => p.sq))))) := by
  have hS : shape (sumMatsL ((p0 :: p1 :: rest).map (fun p => p.se))) =
      List.replicate b D := by
    rw [List.map_cons]
    rw [shape_sumMatsL p0.se ((p1 :: rest).map (fun p => p.se))
      (fun a ha => by
        simp only [List.mem_map] at ha
        obtain ⟨p, hp, rfl⟩ := ha
        rw [hse p (List.mem_cons.mpr (Or.inr hp)), hse p0 (by simp)])]
    exact hse p0 (by simp)
  have hQ : shape (sumMatsL ((p0 :: p1 :: rest).map (fun p => p.sq))) =
      List.replicate b D := by
    rw [List.map_cons]
    rw [shape_sumMatsL p0.sq ((p1 :: rest).map (fun p => p.sq))
      (fun a ha => by
        simp only [List.mem_map] at ha
        obtain ⟨p, hp, rfl⟩ := ha
        rw [hsq p (List.mem_cons.mpr (Or.inr hp)), hsq p0 (by simp)])]
    exact hsq p0 (by simp)
  simp only [recon2, selSumEmbs_flat p0 p1 rest b D hse,
    selSquareEmbs_flat p0 p1 rest b D hsq, Option.bind_eq_bind,
    Option.some_bind]
  have hmb := matB_same (fun p q => p - q)
    (matMap (fun v => v ^ 2) (sumMatsL ((p0 :: p1 :: rest).map (fun p => p.se))))
    (sumMatsL ((p0 :: p1 :: rest).map (fun p => p.sq)))
    (by rw [shape_matMap, hS, hQ])
  exact (congrArg (fun o =>
    Option.bind o (fun d => some (matMap (fun v => (1 / 2) * v) d))) hmb).trans rfl

lemma stackSum_colMats (l : List (List ℚ)) (b : ℕ) (hl : ∀ v ∈ l, v.length = b)
    (hne : l ≠ []) : stackSum (l.map colMat) = some (colMat (sumVecs l)) := by
  cases l with
  | nil => exact absurd rfl hne
  | cons v vs =>
      have h1 := stackSum_eq (colMat v) (vs.map colMat) (fun a ha => by
        obtain ⟨u, hu, rfl⟩ := List.mem_map.mp ha
        rw [shape_colMat, shape_colMat, hl u (by simp [hu]), hl v (by simp)])
      rw [show (v :: vs).map colMat = colMat v :: vs.map colMat from rfl, h1,
        ← sumMatsL_colMat (v :: vs)]
      rfl

lemma fuse_forward_all_real (F : FuseModel) (p0 p1 : PartyOut)
    (rest : List PartyOut) (b D : ℕ) (ds : List ℚ)
    (hdnn : ∀ p ∈ p0 :: p1 :: rest, p.dnn.length = b)
    (hfm1 : ∀ p ∈ p0 :: p1 :: rest, p.fm1.length = b)
    (hse : ∀ p ∈ p0 :: p1 :: rest, shape p.se = List.replicate b D)
    (hsq : ∀ p ∈ p0 :: p1 :: rest, shape p.sq = List.replicate b D)
    (hmlp : mlp F.dnn (concatCols ((p0 :: p1 :: rest).map (fun p => p.dnn))) =
      some (colMat ds))
    (hds : ds.length = b) :
    DeepFMFuse.forward F (flatParties (p0 :: p1 :: rest)) =
      some (zip4 (fun d f srow qrow =>
          [(1 / 2) * ((srow.map (fun v => v ^ 2)).sum - qrow.sum) + (D : ℚ) * f + d])
        ds (sumVecs ((p0 :: p1 :: rest).map (fun p => p.fm1)))
        (sumMatsL ((p0 :: p1 :: rest).map (fun p => p.se)))
        (sumMatsL ((p0 :: p1 :: rest).map (fun p => p.sq)))) := by
  have hSm : shape (sumMatsL ((p0 :: p1 :: rest).map (fun p => p.se))) =
      List.replicate b D := by
    rw [List.map_cons]
    rw [shape_sumMatsL p0.se ((p1 :: rest).map (fun p => p.se))
      (fun a ha => by
        obtain ⟨p, hp, rfl⟩ := List.mem_map.mp ha
        rw [hse p (List.mem_cons.mpr (Or.inr hp)), hse p0 (by simp)])]
    exact hse p0 (by simp)
  have hQm : shape (sumMatsL ((p0 :: p1 :: rest).map (fun p => p.sq))) =
      List.replicate b D := by
    rw [List.map_cons]
    rw [shape_sumMatsL p0.sq ((p1 :: rest).map (fun p => p.sq))
      (fun a ha => by
        obtain ⟨p, hp, rfl⟩ := List.mem_map.mp ha
        rw [hsq p (List.mem_cons.mpr (Or.inr hp)), hsq p0 (by simp)])]
    exact hsq p0 (by simp)
  have hF1len : (sumVecs ((p0 :: p1 :: rest).map (fun p => p.fm1))).length = b := by
    apply sumVecs_length _ b
    · intro u hu
      obtain ⟨p, hp, rfl⟩ := List.mem_map.mp hu
      exact hfm1 p hp
    · simp
  have hcat : catMats (List.map (fun p => p.dnn) (p0 :: p1 :: rest)) =
      some (concatCols (List.map (fun p => p.dnn) (p0 :: p1 :: rest))) := by
    simp only [List.map_cons]
    exact catMats_eq _ _ (fun a ha => by
      rcases List.mem_cons.mp ha with h1 | h1
      · subst h1
        rw [hdnn p1 (by simp), hdnn p0 (by simp)]
      · obtain ⟨p, hp, rfl⟩ := List.mem_map.mp h1
        rw [hdnn p (by simp [hp]), hdnn p0 (by simp)])
  have hfm : stackSum (List.map (fun p => colMat p.fm1) (p0 :: p1 :: rest)) =
      some (colMat (sumVecs (List.map (fun p => p.fm1) (p0 :: p1 :: rest)))) := by
    rw [show List.map (fun p => colMat p.fm1) (p0 :: p1 :: rest) =
        (List.map (fun p => p.fm1) (p0 :: p1 :: rest)).map colMat by
      rw [List.map_map]
      rfl]
    exact stackSum_colMats _ b (fun u hu => by
      obtain ⟨p, hp, rfl⟩ := List.mem_map.mp hu
      exact hfm1 p hp) (by simp)
  have hHshape : shape (matMap (fun v => (1 / 2) * v)
      (matZip (fun p q => p - q)
        (matMap (fun v => v ^ 2)
          (sumMatsL ((p0 :: p1 :: rest).map (fun p => p.se))))
        (sumMatsL ((p0 :: p1 :: rest).map (fun p => p.sq))))) =
      List.replicate b D := by
    rw [shape_matMap, shape_matZip _ _ _ (by rw [shape_matMap, hSm, hQm]),
      shape_matMap, hSm]
  have hsub := matB_col (fun p q => p + q)
    (matMap (fun v => (1 / 2) * v)
      (matZip (fun p q => p - q)
        (matMap (fun v => v ^ 2)
          (sumMatsL ((p0 :: p1 :: rest).map (fun p => p.se))))
        (sumMatsL ((p0 :: p1 :: rest).map (fun p => p.sq)))))
    (sumVecs ((p0 :: p1 :: rest).map (fun p => p.fm1)))
    (by rw [length_eq_of_shape _ b D hHshape, hF1len])
  simp only [DeepFMFuse.forward, Option.bind_eq_bind]
  rw [every4_flat0, allMats_map_mat]
  simp only [Option.some_bind]
  rw [hcat]
  simp only [Option.some_bind]
  rw [every4_flat1, allMats_map_mat]
  simp only [Option.some_bind]
  rw [hfm]
  simp only [Option.some_bind]
  rw [recon2_flat p0 p1 rest b D hse hsq]
  simp only [Option.some_bind]
  rw [hsub]
  simp only [Option.some_bind]
  rw [hmlp]
  simp only [Option.some_bind]
  have hfinal := matB_col (fun p q => p + q)
    (rowSums (List.zipWith
      (fun r c => r.map (fun q => (fun p q => p + q) q c))
      (matMap (fun v => (1 / 2) * v)
        (matZip (fun p q => p - q)
          (matMap (fun v => v ^ 2)
            (sumMatsL ((p0 :: p1 :: rest).map (fun p => p.se))))
          (sumMatsL ((p0 :: p1 :: rest).map (fun p => p.sq)))))
      (sumVecs ((p0 :: p1 :: rest).map (fun p => p.fm1)))))
    ds
    (by
      simp only [rowSums, List.length_map, List.length_zipWith,
        length_eq_of_shape _ b D hHshape, hF1len, hds, min_self])
  rw [hfinal]
  refine congrArg some ?_
  have hc := final_calc D ds (sumVecs ((p0 :: p1 :: rest).map (fun p => p.fm1)))
    (sumMatsL ((p0 :: p1 :: rest).map (fun p => p.se)))
    (sumMatsL ((p0 :: p1 :: rest).map (fun p => p.sq)))
    (by rw [hSm, hds]) (by rw [hQm, hds]) (by rw [hF1len, hds])
  exact hc

/-- Claim C3 (code bug): the spec requires that with party A categorical
and party B without categorical features (B emits the sentinel
`torch.tensor(0, dtype=torch.float32)` in its tuple slots 2 and 3), the
aggregator detect the sentinel and substitute party A's statistics.  The
code compares with `torch.equal(x[i], torch.tensor(0))`, whose literal
is int64, and `torch.equal` is dtype-sensitive, so the comparison is
never true: the sentinel falls through to `torch.stack` together with
party A's two-dimensional matrix and the forward pass raises instead of
producing the substituted second-order term. -/
theorem C3_sentinel_dtype_mismatch_crashes (F : FuseModel)
    (dA fA sA qA dB fB : Mat) :
    DeepFMFuse.forward F [Tensor.mat dA, Tensor.mat fA, Tensor.mat sA,
      Tensor.mat qA, Tensor.mat dB, Tensor.mat fB,
      Tensor.scalar DType.float32 0, Tensor.scalar DType.float32 0] = none := by
  have hsel : selSumEmbs [Tensor.mat dA, Tensor.mat fA, Tensor.mat sA,
      Tensor.mat qA, Tensor.mat dB, Tensor.mat fB,
      Tensor.scalar DType.float32 0, Tensor.scalar DType.float32 0] = none := by
    simp [selSumEmbs, every4, allMats, seqO, asMat, dtype_float32_ne_int64]
  have hrec : recon2 [Tensor.mat dA, Tensor.mat fA, Tensor.mat sA,
      Tensor.mat qA, Tensor.mat dB, Tensor.mat fB,
      Tensor.scalar DType.float32 0, Tensor.scalar DType.float32 0] = none := by
    simp [recon2, hsel]
  cases h1 : allMats (every4 [Tensor.mat dA, Tensor.mat fA, Tensor.mat sA,
      Tensor.mat qA, Tensor.mat dB, Tensor.mat fB,
      Tensor.scalar DType.float32 0, Tensor.scalar DType.float32 0]) with
  | none => simp [DeepFMFuse.forward, h1]
  | some dmats =>
      cases h2 : catMats dmats with
      | none => simp [DeepFMFuse.forward, h1, h2]
      | some dn =>
          cases h3 : allMats (every4 ([Tensor.mat fA, Tensor.mat sA,
              Tensor.mat qA, Tensor.mat dB, Tensor.mat fB,
              Tensor.scalar DType.float32 0,
              Tensor.scalar DType.float32 0] : List Tensor)) with
          | none => simp [DeepFMFuse.forward, h1, h2, h3]
          | some fmats =>
              cases h4 : stackSum fmats with
              | none => simp [DeepFMFuse.forward, h1, h2, h3, h4]
              | some fm => simp [DeepFMFuse.forward, h1, h2, h3, h4, hrec]

/-- Claim C10: sentinel detection cannot false-positive on genuinely
zero statistics: a two-dimensional matrix — in particular an all-zero
`batch x D` one — is never equal to the zero-dimensional literal
regardless of its dtype or value (`torch.equal` short-circuits on
shape), so with matrices in slots 2 and 6 the aggregator always takes
the general stack-and-sum path. -/
theorem C10_no_false_positive_on_zero_matrices (m2 m6 : Mat)
    (t0 t1 t3 t4 t5 t7 : Tensor) :
    (∀ (d : DType) (c : ℚ), Tensor.mat m2 ≠ Tensor.scalar d c) ∧
    selSumEmbs [t0, t1, Tensor.mat m2, t3, t4, t5, Tensor.mat m6, t7] =
      (allMats (every4 ([t0, t1, Tensor.mat m2, t3, t4, t5,
        Tensor.mat m6, t7].drop 2))).bind stackSum := by
  constructor
  · intro d c
    simp
  · simp [selSumEmbs]

/-- Claim C9: `DeepFMFuse.forward` requires at least two parties.  On a
four-element input (one party's tuple) the sentinel detection reads
index 6, which is out of range, so the forward pass fails and never
produces a prediction. -/
theorem C9_single_party_tuple_fails (F : FuseModel) (x : List Tensor)
    (h : x.length = 4) : DeepFMFuse.forward F x = none := by
  obtain ⟨a, b, c, d, rfl⟩ : ∃ a b c d, x = [a, b, c, d] := by
    match x, h with
    | [a, b, c, d], _ => exact ⟨a, b, c, d, rfl⟩
  have hsel : selSumEmbs [a, b, c, d] = none := by
    simp only [selSumEmbs, show ([a, b, c, d] : List Tensor)[2]? = some c by simp,
      show ([a, b, c, d] : List Tensor)[6]? = none by simp,
      Option.bind_eq_bind, Option.some_bind]
    split <;> simp
  have hrec : recon2 [a, b, c, d] = none := by
    simp [recon2, hsel]
  cases h1 : allMats (every4 [a, b, c, d]) with
  | none => simp [DeepFMFuse.forward, h1]
  | some dmats =>
      cases h2 : catMats dmats with
      | none => simp [DeepFMFuse.forward, h1, h2]
      | some dn =>
          cases h3 : allMats (every4 ([b, c, d] : List Tensor)) with
          | none => simp [DeepFMFuse.forward, h1, h2, h3]
          | some fmats =>
              cases h4 : stackSum fmats with
              | none => simp [DeepFMFuse.forward, h1, h2, h3, h4]
              | some fm => simp [DeepFMFuse.forward, h1, h2, h3, h4, hrec]

/-- Witness for C9 at a concrete single-party tuple. -/
theorem C9_single_party_tuple_fails_witness :
    DeepFMFuse.forward ⟨[1], [Linear.mk 1 [[1]] [0]]⟩
      [Tensor.mat [[1]], Tensor.mat [[1]], Tensor.mat [[1, 0]],
        Tensor.mat [[1, 0]]] = none :=
  C9_single_party_tuple_fails _ _ (by decide)

/-- Claim C6 (amended): `DeepFMBase.forward` rejects every input whose
slot count differs from the configured one and produces no output;
`DeepFMFuse.forward`, by contrast, performs no tuple-length validation
(see the counterexample, where a length-9 input succeeds). -/
theorem C6_base_rejects_slot_count_mismatch (st : BaseState) (W : BaseWeights)
    (x : List SlotIn) (h : x.length ≠ st.input_size) :
    DeepFMBase.forward st W x = none := by
  unfold DeepFMBase.forward
  rw [if_neg h]

/-- Witness for the amended C6 at a concrete mismatched input. -/
theorem C6_base_rejects_slot_count_mismatch_witness :
    ([] : List SlotIn).length ≠ 1 ∧
    DeepFMBase.forward ⟨1, [], true, false, 1, 0, 4, 4, 0⟩
      ⟨fun _ => [], fun _ => [], ⟨0, [], []⟩, ⟨0, [], []⟩, []⟩ [] = none :=
  ⟨by decide, C6_base_rejects_slot_count_mismatch _ _ _ (by decide)⟩

/-- Counterexample to C6 as stated: a flat input of length 9 — neither a
multiple of 4 nor matching the configured three parties when divided by
4 — is accepted by `DeepFMFuse.forward` and produces an output instead
of failing. -/
theorem C6_fuse_accepts_malformed_length_counterexample :
    ([Tensor.mat [[1]], Tensor.mat [[2]], Tensor.mat [[3, 4]], Tensor.mat [[5, 6]],
        Tensor.mat [[1]], Tensor.mat [[0]], Tensor.mat [[1, 1]], Tensor.mat [[2, 2]],
        Tensor.mat [[1]]] : List Tensor).length % 4 ≠ 0 ∧
    DeepFMFuse.forward ⟨[1, 1, 1], [Linear.mk 3 [[1, 1, 1]] [0]]⟩
      [Tensor.mat [[1]], Tensor.mat [[2]], Tensor.mat [[3, 4]], Tensor.mat [[5, 6]],
        Tensor.mat [[1]], Tensor.mat [[0]], Tensor.mat [[1, 1]], Tensor.mat [[2, 2]],
        Tensor.mat [[1]]] = some [[20]] := by
  constructor
  · decide
  · norm_num [DeepFMFuse.forward, selSumEmbs, selSquareEmbs, recon2, subQ, every4,
      allMats, seqO, asMat, catMats, stackSum, sumMatsL, matAdd, matZip, matMap,
      matB, rowB, rowSums, mlp, Linear.applyMat, Linear.applyVec, dotL, colMat,
      concatCols, catTwo, shape, tensor_mat_ne_scalar, dtype_float32_ne_int64, Option.some_bind]

/-- Claim C7 (amended): a continuous-index list referencing a slot index
outside the valid range makes `DeepFMBase.__init__` fail (the
`continuous_dim` accumulation reads `input_dims[index]`); an empty party
with zero total slots, however, is accepted at construction (see the
counterexample). -/
theorem C7_out_of_range_continuous_index_rejected (input_dims : List ℕ)
    (idxs : List ℕ) (D : ℕ) (i : ℕ) (hi : i ∈ idxs)
    (hrange : input_dims.length ≤ i) :
    DeepFMBase.init input_dims idxs D = none := by
  unfold DeepFMBase.init
  have hne : (idxs != []) = true := by
    cases idxs with
    | nil => simp at hi
    | cons a l => simp
  rw [if_pos hne]
  have hnone : seqO (idxs.map (fun j => input_dims[j]?)) = none :=
    seqO_map_none idxs _ i hi (List.getElem?_eq_none hrange)
  simp [hnone]

/-- Witness for the amended C7: index 5 is out of range for a
single-slot party. -/
theorem C7_out_of_range_continuous_index_rejected_witness :
    (5 : ℕ) ∈ [5] ∧ ([2] : List ℕ).length ≤ 5 ∧
    DeepFMBase.init [2] [5] 4 = none :=
  ⟨by decide, by decide,
    C7_out_of_range_continuous_index_rejected [2] [5] 4 5 (by decide) (by decide)⟩

/-- Counterexample to C7 as stated: the pathological empty party (zero
total slots) is not rejected at construction; `DeepFMBase.__init__`
succeeds and returns a configuration state. -/
theorem C7_empty_party_accepted_counterexample :
    DeepFMBase.init [] [] 4 = some ⟨0, [], false, false, 0, 0, 4, 4, 0⟩ := by
  decide

/-- Claim C5: `DeepFMBase.output_num` is always exactly 4 and every
successful `DeepFMBase.forward` returns a list of exactly four tensors;
when the party has no categorical features, the third and fourth
elements are the zero-dimensional scalar-0 sentinel, not a width-D zero
matrix. -/
theorem C5_output_tuple_always_four :
    DeepFMBase.output_num = 4 ∧
    ∀ (st : BaseState) (W : BaseWeights) (x : List SlotIn) (r : List Tensor),
      DeepFMBase.forward st W x = some r →
      r.length = 4 ∧
      (st.has_cat_feas = false →
        r[2]? = some (Tensor.scalar DType.float32 0) ∧ r[3]? = some (Tensor.scalar DType.float32 0)) := by
  refine ⟨rfl, ?_⟩
  intro st W x r h
  unfold DeepFMBase.forward at h
  split at h
  · simp only [Option.bind_eq_bind, Option.bind_eq_some] at h
    obtain ⟨fm1, -, h⟩ := h
    split at h
    case isTrue hcat =>
        simp only [Option.bind_eq_bind, Option.bind_eq_some] at h
        obtain ⟨a1, -, a2, -, a3, -, a4, -, h⟩ := h
        split at h
        · simp only [Option.bind_eq_bind, Option.bind_eq_some, Option.some.injEq] at h
          obtain ⟨b1, -, b2, -, b3, -, b4, -, h⟩ := h
          subst h
          exact ⟨rfl, fun hf => by rw [hf] at hcat; exact Bool.noConfusion hcat⟩
        · simp only [Option.bind_eq_bind, Option.bind_eq_some, Option.some.injEq] at h
          obtain ⟨b1, -, b2, -, h⟩ := h
          subst h
          exact ⟨rfl, fun hf => by rw [hf] at hcat; exact Bool.noConfusion hcat⟩
    case isFalse hcat =>
        split at h
        · simp only [Option.bind_eq_bind, Option.bind_eq_some, Option.some.injEq] at h
          obtain ⟨b1, -, b2, -, b3, -, h⟩ := h
          subst h
          exact ⟨rfl, fun _ => ⟨by simp, by simp⟩⟩
        · simp at h
  · exact absurd h (by simp)

/-- Witness for C5 on a concrete continuous-only party (no categorical
features): the tuple has four elements with the sentinel in positions 2
and 3. -/
theorem C5_output_tuple_always_four_witness :
    ([Tensor.mat [[2]], Tensor.mat [[2]], Tensor.scalar DType.float32 0,
        Tensor.scalar DType.float32 0] : List Tensor).length = 4 ∧
    ([Tensor.mat [[2]], Tensor.mat [[2]], Tensor.scalar DType.float32 0,
        Tensor.scalar DType.float32 0] : List Tensor)[2]? = some (Tensor.scalar DType.float32 0) ∧
    ([Tensor.mat [[2]], Tensor.mat [[2]], Tensor.scalar DType.float32 0,
        Tensor.scalar DType.float32 0] : List Tensor)[3]? = some (Tensor.scalar DType.float32 0) := by
  have hf : DeepFMBase.forward ⟨1, [0], false, true, 0, 1, 1, 1, 1⟩
      ⟨fun _ => [], fun _ => [], ⟨1, [[1]], [0]⟩, ⟨1, [[1]], [0]⟩,
        [⟨1, [[1]], [0]⟩]⟩ [SlotIn.val [[2]]] =
      some [Tensor.mat [[2]], Tensor.mat [[2]], Tensor.scalar DType.float32 0, Tensor.scalar DType.float32 0] := by
    norm_num [DeepFMBase.forward, fm1stPart, catSlots, denseCat, getIdx, getVal,
      lookup1, lookup2, List.range_succ, allMats, seqO, asMat, catMats, stackSum,
      sumMatsL, matAdd, matZip, matMap, matB, rowB, rowSums, mlp, Linear.applyMat,
      Linear.applyVec, dotL, relu, colMat, concatCols, catTwo, shape,
      tensor_mat_ne_scalar, dtype_float32_ne_int64, Option.some_bind]
  obtain ⟨h1, h2⟩ := C5_output_tuple_always_four.2 _ _ _ _ hf
  exact ⟨h1, (h2 rfl).1, (h2 rfl).2⟩

/-- Claim C1 (amended): for every valid N-party fuse input (N at least
2) in which each party contributes real second-order statistics, the
pre-sigmoid output per example equals the fusion feed-forward network
applied to the concatenated DNN branches, plus 0.5 times the sum over
the embedding dimension of S squared minus Q, plus D times the
party-wise sum of first-order scalars: the (batch x 1) first-order
column is broadcast over the (batch x D) interaction matrix before the
row reduction, so it is added once per embedding dimension, not once per
example. -/
theorem C1_presigmoid_first_order_broadcast (F : FuseModel) (ps : List PartyOut)
    (b D : ℕ) (ds : List ℚ) (hN : 2 ≤ ps.length)
    (hdnn : ∀ p ∈ ps, p.dnn.length = b)
    (hfm1 : ∀ p ∈ ps, p.fm1.length = b)
    (hse : ∀ p ∈ ps, shape p.se = List.replicate b D)
    (hsq : ∀ p ∈ ps, shape p.sq = List.replicate b D)
    (hmlp : mlp F.dnn (concatCols (ps.map (fun p => p.dnn))) = some (colMat ds))
    (hds : ds.length = b) :
    DeepFMFuse.forward F (flatParties ps) =
      some (zip4 (fun d f srow qrow =>
          [(1 / 2) * ((srow.map (fun v => v ^ 2)).sum - qrow.sum) + (D : ℚ) * f + d])
        ds (sumVecs (ps.map (fun p => p.fm1)))
        (sumMatsL (ps.map (fun p => p.se)))
        (sumMatsL (ps.map (fun p => p.sq)))) := by
  match ps, hN, hdnn, hfm1, hse, hsq, hmlp with
  | p0 :: p1 :: rest, _, hdnn, hfm1, hse, hsq, hmlp =>
      exact fuse_forward_all_real F p0 p1 rest b D ds hdnn hfm1 hse hsq hmlp hds

/-- Witness for the amended C1 at a concrete two-party all-real input
with batch 1 and embedding dimension 2. -/
theorem C1_presigmoid_first_order_broadcast_witness :
    DeepFMFuse.forward ⟨[1, 1], [Linear.mk 2 [[0, 0]] [0]]⟩
      (flatParties [⟨[[1]], [1], [[1, 0]], [[1, 0]]⟩,
        ⟨[[0]], [0], [[0, 0]], [[0, 0]]⟩]) =
      some (zip4 (fun d f srow qrow =>
          [(1 / 2) * ((srow.map (fun v => v ^ 2)).sum - qrow.sum) +
            (((2 : ℕ) : ℚ)) * f + d])
        [0] (sumVecs [[1], [0]]) (sumMatsL [[[1, 0]], [[0, 0]]])
        (sumMatsL [[[1, 0]], [[0, 0]]])) := by
  refine C1_presigmoid_first_order_broadcast _ _ 1 2 [0] (by decide) (by decide)
    (by decide) (by decide) (by decide) ?_ (by decide)
  norm_num [mlp, Linear.applyMat, Linear.applyVec, seqO, dotL, concatCols,
    catTwo, colMat]

/-- Counterexample to C1 as stated: at a concrete two-party all-real
input the code's pre-sigmoid output is 2, while the claimed formula —
with the first-order sum added exactly once per example — evaluates to
1. -/
theorem C1_first_order_added_once_counterexample :
    DeepFMFuse.forward ⟨[1, 1], [Linear.mk 2 [[0, 0]] [0]]⟩
      (flatParties [⟨[[1]], [1], [[1, 0]], [[1, 0]]⟩,
        ⟨[[0]], [0], [[0, 0]], [[0, 0]]⟩]) = some [[2]] ∧
    ¬ ((2 : ℚ) = 0 + (1 / 2) * ((((1 : ℚ) + 0) ^ 2 - ((1 : ℚ) + 0)) +
        (((0 : ℚ) + 0) ^ 2 - ((0 : ℚ) + 0))) + ((1 : ℚ) + 0)) := by
  constructor
  · norm_num [DeepFMFuse.forward, selSumEmbs, selSquareEmbs, recon2, subQ,
      every4, allMats, seqO, asMat, catMats, stackSum, sumMatsL, matAdd, matZip,
      matMap, matB, rowB, rowSums, mlp, Linear.applyMat, Linear.applyVec, dotL,
      colMat, concatCols, catTwo, shape, flatParties, tensor_mat_ne_scalar,
      Option.some_bind]
  · norm_num

/-- Claim C4 (amended): for three or more parties the reconstructed
second-order term equals 0.5 times (the elementwise square of the sum of
per-party `sum_emb` vectors minus the sum of per-party
`square_and_sum_emb` vectors) when EVERY party contributes real
matrices; if any party emits the float32 sentinel, the dtype-sensitive
comparison against the int64 literal does not fire, the sentinel reaches
`torch.stack` together with the real matrices, and the forward raises
instead of reconstructing anything — see the counterexample. -/
theorem C4_recon2_all_real_parties (ps : List PartyOut) (b D : ℕ)
    (hN : 3 ≤ ps.length)
    (hse : ∀ p ∈ ps, shape p.se = List.replicate b D)
    (hsq : ∀ p ∈ ps, shape p.sq = List.replicate b D) :
    recon2 (flatParties ps) =
      some (matMap (fun v => (1 / 2) * v)
        (matZip (fun p q => p - q)
          (matMap (fun v => v ^ 2) (sumMatsL (ps.map (fun p => p.se))))
          (sumMatsL (ps.map (fun p => p.sq))))) := by
  match ps, hN, hse, hsq with
  | p0 :: p1 :: rest, _, hse, hsq => exact recon2_flat p0 p1 rest b D hse hsq

/-- Witness for the amended C4 at a concrete three-party all-real
input. -/
theorem C4_recon2_all_real_parties_witness :
    recon2 (flatParties [⟨[[1]], [0], [[1]], [[1]]⟩, ⟨[[1]], [0], [[2]], [[4]]⟩,
        ⟨[[1]], [0], [[3]], [[9]]⟩]) =
      some (matMap (fun v => (1 / 2) * v)
        (matZip (fun p q => p - q)
          (matMap (fun v => v ^ 2) (sumMatsL [[[1]], [[2]], [[3]]]))
          (sumMatsL [[[1]], [[4]], [[9]]]))) :=
  C4_recon2_all_real_parties
    [⟨[[1]], [0], [[1]], [[1]]⟩, ⟨[[1]], [0], [[2]], [[4]]⟩,
      ⟨[[1]], [0], [[3]], [[9]]⟩] 1 1 (by decide) (by decide) (by decide)

/-- Counterexample to C4 as stated: with three parties where the first
emits the float32 sentinel and the other two contribute real vectors (at
least two real contributors), the dtype-sensitive comparison against the
int64 literal is false, the sentinel reaches `torch.stack` next to the
(batch x D) matrices, and the reconstruction raises — it produces no
value at all, in particular not the claimed
`0.5 * ((1 + 1)^2 - (1 + 1))`. -/
theorem C4_sentinel_crashes_counterexample :
    recon2 [Tensor.mat [[1]], Tensor.mat [[0]], Tensor.scalar DType.float32 0,
        Tensor.scalar DType.float32 0,
        Tensor.mat [[1]], Tensor.mat [[0]], Tensor.mat [[1]], Tensor.mat [[1]],
        Tensor.mat [[1]], Tensor.mat [[0]], Tensor.mat [[1]], Tensor.mat [[1]]] =
      none ∧
    ∀ m : Mat,
      recon2 [Tensor.mat [[1]], Tensor.mat [[0]], Tensor.scalar DType.float32 0,
        Tensor.scalar DType.float32 0,
        Tensor.mat [[1]], Tensor.mat [[0]], Tensor.mat [[1]], Tensor.mat [[1]],
        Tensor.mat [[1]], Tensor.mat [[0]], Tensor.mat [[1]], Tensor.mat [[1]]] ≠
      some m := by
  constructor
  · norm_num [recon2, selSumEmbs, selSquareEmbs, subQ, every4, allMats, seqO,
      asMat, stackSum, sumMatsL, matAdd, matZip, matMap, matB, rowB, shape,
      tensor_mat_ne_scalar, dtype_float32_ne_int64, Option.some_bind]
  · intro m
    norm_num [recon2, selSumEmbs, selSquareEmbs, subQ, every4, allMats, seqO,
      asMat, stackSum, sumMatsL, matAdd, matZip, matMap, matB, rowB, shape,
      tensor_mat_ne_scalar, dtype_float32_ne_int64, Option.some_bind]
    exact fun h => Option.noConfusion h

/-- The full pairwise interaction sum over all distinct embedding pairs
(i, j) with i < j: the quantity the factorization-machine identity
reconstructs. -/
def pairwiseInteraction : List (List ℚ) → ℚ
  | [] => 0
  | v :: vs => (vs.map (fun w => dotL v w)).sum + pairwiseInteraction vs

/-- Right fold formulation of the vector sum, with the all-zero vector
as base; agrees with `sumVecs` on nonempty uniform-width lists. -/
def vecSumR (D : ℕ) (l : List (List ℚ)) : List ℚ :=
  l.foldr (fun v acc => List.zipWith (fun p q => p + q) v acc) (List.replicate D 0)

lemma zip_add_zero (v : List ℚ) :
    List.zipWith (fun p q => p + q) v (List.replicate v.length 0) = v := by
  induction v with
  | nil => rfl
  | cons a vs ih =>
      simp only [List.length_cons, List.replicate_succ, List.zipWith_cons_cons,
        add_zero, ih]

lemma zip_add_assoc (a b c : List ℚ) :
    List.zipWith (fun p q => p + q) (List.zipWith (fun p q => p + q) a b) c =
      List.zipWith (fun p q => p + q) a (List.zipWith (fun p q => p + q) b c) := by
  induction a generalizing b c with
  | nil => simp
  | cons x xs ih =>
      cases b with
      | nil => simp
      | cons y ys =>
          cases c with
          | nil => simp
          | cons z zs =>
              simp only [List.zipWith_cons_cons, ih, add_assoc]

lemma vecSumR_length (D : ℕ) (l : List (List ℚ)) (h : ∀ v ∈ l, v.length = D) :
    (vecSumR D l).length = D := by
  induction l with
  | nil => simp [vecSumR]
  | cons v vs ih =>
      simp only [vecSumR, List.foldr_cons]
      rw [List.length_zipWith, h v (by simp)]
      have := ih (fun u hu => h u (by simp [hu]))
      simp only [vecSumR] at this
      rw [this, min_self]

lemma foldl_zip_eq_vecSumR (D : ℕ) (vs : List (List ℚ)) :
    ∀ acc : List ℚ, acc.length = D → (∀ u ∈ vs, u.length = D) →
    vs.foldl (fun a c => List.zipWith (fun p q => p + q) a c) acc =
      List.zipWith (fun p q => p + q) acc (vecSumR D vs) := by
  induction vs with
  | nil =>
      intro acc hacc _
      simp only [List.foldl_nil, vecSumR, List.foldr_nil]
      rw [← hacc, zip_add_zero]
  | cons w ws ih =>
      intro acc hacc h
      simp only [List.foldl_cons]
      rw [ih (List.zipWith (fun p q => p + q) acc w)
          (by rw [List.length_zipWith, hacc, h w (by simp), min_self])
          (fun u hu => h u (by simp [hu])),
        zip_add_assoc]
      rfl

lemma sumVecs_eq_vecSumR (D : ℕ) (v : List ℚ) (vs : List (List ℚ))
    (h : ∀ u ∈ v :: vs, u.length = D) :
    sumVecs (v :: vs) = vecSumR D (v :: vs) := by
  simp only [sumVecs]
  rw [foldl_zip_eq_vecSumR D vs v (h v (by simp)) (fun u hu => h u (by simp [hu]))]
  rfl

lemma sum_zipWith_add (u w : List ℚ) (h : u.length = w.length) :
    (List.zipWith (fun p q => p + q) u w).sum = u.sum + w.sum := by
  induction u generalizing w with
  | nil =>
      cases w with
      | nil => simp
      | cons b ws => simp at h
  | cons a us ih =>
      cases w with
      | nil => simp at h
      | cons b ws =>
          simp only [List.length_cons, Nat.succ.injEq] at h
          simp only [List.zipWith_cons_cons, List.sum_cons, ih ws h]
          ring

lemma vecSumR_sum (D : ℕ) (l : List (List ℚ)) (h : ∀ v ∈ l, v.length = D) :
    (vecSumR D l).sum = (l.map List.sum).sum := by
  induction l with
  | nil => simp [vecSumR, List.sum_replicate]
  | cons v vs ih =>
      simp only [vecSumR, List.foldr_cons, List.map_cons, List.sum_cons]
      rw [sum_zipWith_add v _ (by
        have := vecSumR_length D vs (fun u hu => h u (by simp [hu]))
        simp only [vecSumR] at this
        rw [h v (by simp), this])]
      have := ih (fun u hu => h u (by simp [hu]))
      simp only [vecSumR] at this
      rw [this]

lemma dot_replicate_zero (v : List ℚ) (n : ℕ) :
    dotL v (List.replicate n 0) = 0 := by
  induction v generalizing n with
  | nil => simp [dotL]
  | cons a vs ih =>
      cases n with
      | zero => simp [dotL]
      | succ n =>
          simp only [List.replicate_succ, dotL, List.zipWith_cons_cons,
            List.sum_cons, mul_zero, zero_add]
          exact ih n

lemma dot_add_right (v w S : List ℚ) (h : w.length = S.length) :
    dotL v (List.zipWith (fun p q => p + q) w S) = dotL v w + dotL v S := by
  induction v generalizing w S with
  | nil => simp [dotL]
  | cons a vs ih =>
      cases w with
      | nil =>
          cases S with
          | nil => simp [dotL]
          | cons c Ss => simp at h
      | cons b ws =>
          cases S with
          | nil => simp at h
          | cons c Ss =>
              simp only [List.length_cons, Nat.succ.injEq] at h
              simp only [List.zipWith_cons_cons, dotL, List.sum_cons]
              have := ih ws Ss h
              simp only [dotL] at this
              rw [this]
              ring

lemma dot_vecSumR (D : ℕ) (v : List ℚ) (vs : List (List ℚ))
    (h : ∀ u ∈ vs, u.length = D) :
    dotL v (vecSumR D vs) = (vs.map (fun w => dotL v w)).sum := by
  induction vs with
  | nil => simp [vecSumR, dot_replicate_zero]
  | cons w ws ih =>
      simp only [vecSumR, List.foldr_cons, List.map_cons, List.sum_cons]
      rw [dot_add_right v w _ (by
        have := vecSumR_length D ws (fun u hu => h u (by simp [hu]))
        simp only [vecSumR] at this
        rw [h w (by simp), this])]
      have := ih (fun u hu => h u (by simp [hu]))
      simp only [vecSumR] at this
      rw [this]

lemma sq_expand (v S : List ℚ) (h : v.length = S.length) :
    ((List.zipWith (fun p q => p + q) v S).map (fun q => q ^ 2)).sum =
      (v.map (fun q => q ^ 2)).sum + 2 * dotL v S +
        (S.map (fun q => q ^ 2)).sum := by
  induction v generalizing S with
  | nil =>
      cases S with
      | nil => simp [dotL]
      | cons c Ss => simp at h
  | cons a vs ih =>
      cases S with
      | nil => simp at h
      | cons c Ss =>
          simp only [List.length_cons, Nat.succ.injEq] at h
          simp only [List.zipWith_cons_cons, List.map_cons, List.sum_cons,
            dotL, ih Ss h]
          ring

lemma pairwise_vecSumR (D : ℕ) (l : List (List ℚ)) (h : ∀ v ∈ l, v.length = D) :
    pairwiseInteraction l =
      (1 / 2) * (((vecSumR D l).map (fun q => q ^ 2)).sum -
        (l.map (fun v => (v.map (fun q => q ^ 2)).sum)).sum) := by
  induction l with
  | nil => simp [pairwiseInteraction, vecSumR, List.sum_replicate]
  | cons v vs ih =>
      have hS : (vecSumR D vs).length = D :=
        vecSumR_length D vs (fun u hu => h u (by simp [hu]))
      have hcons : vecSumR D (v :: vs) =
          List.zipWith (fun p q => p + q) v (vecSumR D vs) := rfl
      simp only [pairwiseInteraction, List.map_cons, List.sum_cons, hcons]
      rw [sq_expand v (vecSumR D vs) (by rw [h v (by simp), hS])]
      rw [← dot_vecSumR D v vs (fun u hu => h u (by simp [hu]))]
      rw [ih (fun u hu => h u (by simp [hu]))]
      ring

/-- Claim C2: for a single party with any number of categorical slots
and any embedding values of uniform width D, the full pairwise
interaction sum over all distinct embedding pairs equals 0.5 times
(`sum_emb` squared minus `square_and_sum_emb`) summed over the embedding
dimension, where `sum_emb` is the elementwise sum across slots and
`square_and_sum_emb` the sum across slots of elementwise squares — the
statistics computed by `DeepFMBase.forward`. -/
theorem C2_pairwise_interaction_identity (D : ℕ) (embs : List (List ℚ))
    (h : ∀ v ∈ embs, v.length = D) :
    pairwiseInteraction embs =
      (1 / 2) * (((sumVecs embs).map (fun q => q ^ 2)).sum -
        (sumVecs (embs.map (List.map (fun q => q ^ 2)))).sum) := by
  cases embs with
  | nil => simp [pairwiseInteraction, sumVecs]
  | cons v vs =>
      have h2 : ∀ u ∈ (List.map (fun q => q ^ 2) v) ::
          vs.map (List.map (fun q => q ^ 2)), u.length = D := by
        intro u hu
        rcases List.mem_cons.mp hu with h1 | h1
        · subst h1
          rw [List.length_map]
          exact h v (by simp)
        · obtain ⟨w, hw, rfl⟩ := List.mem_map.mp h1
          rw [List.length_map]
          exact h w (by simp [hw])
      have e1 : sumVecs (v :: vs) = vecSumR D (v :: vs) :=
        sumVecs_eq_vecSumR D v vs h
      have e2 : (sumVecs ((v :: vs).map (List.map (fun q => q ^ 2)))).sum =
          ((v :: vs).map (fun u => (u.map (fun q => q ^ 2)).sum)).sum := by
        rw [show (v :: vs).map (List.map (fun q => q ^ 2)) =
            (List.map (fun q => q ^ 2) v) :: vs.map (List.map (fun q => q ^ 2))
          from rfl]
        rw [sumVecs_eq_vecSumR D _ _ h2, vecSumR_sum D _ h2]
        simp only [List.map_cons, List.map_map, List.sum_cons]
        rfl
      rw [e1, e2]
      exact pairwise_vecSumR D (v :: vs) h

/-- Witness for C2 at three concrete slot embeddings of width 2: both
sides evaluate to 67. -/
theorem C2_pairwise_interaction_identity_witness :
    pairwiseInteraction [[1, 2], [3, 4], [5, 6]] =
      (1 / 2) * (((sumVecs [[1, 2], [3, 4], [5, 6]]).map (fun q => q ^ 2)).sum -
        (sumVecs ([[1, 2], [3, 4], [5, 6]].map
          (List.map (fun q => q ^ 2)))).sum) :=
  C2_pairwise_interaction_identity 2 [[1, 2], [3, 4], [5, 6]] (by decide)

/-- Claim C8: the end-to-end two-party forward pass (two `DeepFMBase`
forwards followed by `DeepFMFuse`) is deterministic — the model is a
pure function of weights and inputs — and every per-example prediction
(the sigmoid of the pre-sigmoid output) lies strictly between 0 and 1. -/
theorem C8_end_to_end_deterministic_and_in_unit_interval
    (st1 : BaseState) (W1 : BaseWeights) (x1 : List SlotIn)
    (st2 : BaseState) (W2 : BaseWeights) (x2 : List SlotIn)
    (F : FuseModel) (P : List (List ℝ))
    (h : endToEndPreds st1 W1 x1 st2 W2 x2 F = some P) :
    endToEndPre st1 W1 x1 st2 W2 x2 F = endToEndPre st1 W1 x1 st2 W2 x2 F ∧
    ∀ row ∈ P, ∀ v ∈ row, 0 < v ∧ v < 1 := by
  refine ⟨rfl, ?_⟩
  intro row hrow v hv
  unfold endToEndPreds at h
  obtain ⟨m, hm, rfl⟩ := Option.map_eq_some'.mp h
  obtain ⟨r, hr, rfl⟩ := List.mem_map.mp hrow
  obtain ⟨q, hq, rfl⟩ := List.mem_map.mp hv
  have hexp := Real.exp_pos (-(q : ℝ))
  unfold sigmoid
  constructor
  · exact div_pos one_pos (by linarith)
  · rw [div_lt_one (by linarith)]
    linarith

/-- Witness for C8 at a concrete two-party scenario in which both
parties have one categorical slot of cardinality 2 (so no sentinel is
emitted and the fuse takes the general stack path), constructed through
`DeepFMBase.init` and evaluated end to end: the pre-sigmoid output is
23/4 and the prediction is strictly inside (0, 1). -/
theorem C8_end_to_end_deterministic_and_in_unit_interval_witness :
    DeepFMBase.init [2] [] 1 = some ⟨1, [], true, false, 1, 0, 1, 1, 0⟩ ∧
    endToEndPre ⟨1, [], true, false, 1, 0, 1, 1, 0⟩
      ⟨fun _ => [1 / 2, -1 / 2], fun _ => [[1], [-1]], ⟨0, [], []⟩, ⟨0, [], []⟩,
        [⟨1, [[1]], [0]⟩]⟩ [SlotIn.idx [0]]
      ⟨1, [], true, false, 1, 0, 1, 1, 0⟩
      ⟨fun _ => [1 / 4, 0], fun _ => [[2], [0]], ⟨0, [], []⟩, ⟨0, [], []⟩,
        [⟨1, [[1]], [0]⟩]⟩ [SlotIn.idx [0]]
      ⟨[1, 1], [⟨2, [[1, 1]], [0]⟩]⟩ = some [[23 / 4]] ∧
    (0 < sigmoid ((23 / 4 : ℚ) : ℝ) ∧ sigmoid ((23 / 4 : ℚ) : ℝ) < 1) := by
  have hpre : endToEndPre ⟨1, [], true, false, 1, 0, 1, 1, 0⟩
      ⟨fun _ => [1 / 2, -1 / 2], fun _ => [[1], [-1]], ⟨0, [], []⟩, ⟨0, [], []⟩,
        [⟨1, [[1]], [0]⟩]⟩ [SlotIn.idx [0]]
      ⟨1, [], true, false, 1, 0, 1, 1, 0⟩
      ⟨fun _ => [1 / 4, 0], fun _ => [[2], [0]], ⟨0, [], []⟩, ⟨0, [], []⟩,
        [⟨1, [[1]], [0]⟩]⟩ [SlotIn.idx [0]]
      ⟨[1, 1], [⟨2, [[1, 1]], [0]⟩]⟩ = some [[23 / 4]] := by
    norm_num [endToEndPre, DeepFMBase.forward, fm1stPart, catSlots, denseCat,
      getIdx, getVal, lookup1, lookup2, List.range_succ, DeepFMFuse.forward,
      selSumEmbs, selSquareEmbs, recon2, subQ, every4, allMats, seqO, asMat,
      catMats, stackSum, sumMatsL, matAdd, matZip, matMap, matB, rowB, rowSums,
      mlp, Linear.applyMat, Linear.applyVec, dotL, relu, colMat, concatCols,
      catTwo, shape, tensor_mat_ne_scalar, dtype_float32_ne_int64, Option.some_bind]
  have hpreds : endToEndPreds ⟨1, [], true, false, 1, 0, 1, 1, 0⟩
      ⟨fun _ => [1 / 2, -1 / 2], fun _ => [[1], [-1]], ⟨0, [], []⟩, ⟨0, [], []⟩,
        [⟨1, [[1]], [0]⟩]⟩ [SlotIn.idx [0]]
      ⟨1, [], true, false, 1, 0, 1, 1, 0⟩
      ⟨fun _ => [1 / 4, 0], fun _ => [[2], [0]], ⟨0, [], []⟩, ⟨0, [], []⟩,
        [⟨1, [[1]], [0]⟩]⟩ [SlotIn.idx [0]]
      ⟨[1, 1], [⟨2, [[1, 1]], [0]⟩]⟩ = some [[sigmoid ((23 / 4 : ℚ) : ℝ)]] := by
    rw [endToEndPreds, hpre]
    rfl
  refine ⟨by decide, hpre, ?_⟩
  exact (C8_end_to_end_deterministic_and_in_unit_interval _ _ _ _ _ _ _ _
    hpreds).2 [sigmoid ((23 / 4 : ℚ) : ℝ)] (List.mem_singleton.mpr rfl)
    (sigmoid ((23 / 4 : ℚ) : ℝ)) (List.mem_singleton.mpr rfl)
